import Mathlib

/-!
Verification development for U-Pack (UPack_v2.0.0.py), the UDCS batch
packaging tool.  The Python source is shallowly embedded: file contents are
lists of byte values (`List Nat`), directory listings are lists of records,
stateful stages are folds over explicit state, and the per-object sequences
of filesystem operations are modelled as traces of operation lists so that
ordering and crash-point properties can be stated.
-/

namespace UPack

/-!
Checksum engine.  `md5` reads the file with `md5file.read(4096)` in a loop
until an empty chunk is returned; `sha3hash` does the same with
`io.DEFAULT_BUFFER_SIZE` (8192) byte chunks.  A hash accumulator is modelled
by the sequence of bytes fed to it (`fed`); the digest function itself is an
arbitrary parameter `H`, and `hexdigest` is modelled by `hexEncode`, the
lowercase hexadecimal encoding that `hashlib` produces.
-/

def chunksAux (n : Nat) : Nat → List Nat → List (List Nat)
  | 0, _ => []
  | _, [] => []
  | fuel + 1, x :: xs => (x :: xs).take n :: chunksAux n fuel ((x :: xs).drop n)

def chunks (n : Nat) (l : List Nat) : List (List Nat) :=
  chunksAux n l.length l

/-- Lowercase hexadecimal digit, as produced by `hashlib`'s `hexdigest`. -/
def hexDigit (n : Nat) : Char :=
  match n with
  | 0 => '0' | 1 => '1' | 2 => '2' | 3 => '3' | 4 => '4' | 5 => '5' | 6 => '6' | 7 => '7'
  | 8 => '8' | 9 => '9' | 10 => 'a' | 11 => 'b' | 12 => 'c' | 13 => 'd' | 14 => 'e' | 15 => 'f'
  | _ => '0'

def hexByte (b : Nat) : List Char :=
  [hexDigit (b / 16 % 16), hexDigit (b % 16)]

def hexEncode (l : List Nat) : List Char :=
  l.flatMap hexByte

/-- Trace of one streaming digest computation: the bytes fed to the
accumulator (one `update` per chunk), the number of `read` calls (the last
one returns the empty chunk), and the total number of bytes read. -/
structure HashRun where
  fed : List Nat
  readCalls : Nat
  bytesRead : Nat
deriving DecidableEq

def digestRun (chunkSize : Nat) (content : List Nat) : HashRun :=
  { fed := (chunks chunkSize content).foldl (fun a b => a ++ b) []
  , readCalls := (chunks chunkSize content).length + 1
  , bytesRead := ((chunks chunkSize content).map List.length).sum }

/-- Chunk size used by `md5`: `md5file.read(4096)`. -/
def md5ChunkSize : Nat := 4096

/-- Chunk size used by `sha3hash`: `io.DEFAULT_BUFFER_SIZE` (8192). -/
def sha3ChunkSize : Nat := 8192

/-- `md5`: streams the file through one MD5 accumulator and returns the
lowercase hex digest.  `H` abstracts the MD5 compression itself. -/
def md5 (H : List Nat → List Nat) (content : List Nat) : List Char :=
  hexEncode (H (digestRun md5ChunkSize content).fed)

/-- `sha3hash`: streams the file through one SHA3-256 accumulator and returns
the lowercase hex digest.  `H` abstracts the SHA3 permutation itself. -/
def sha3hash (H : List Nat → List Nat) (content : List Nat) : List Char :=
  hexEncode (H (digestRun sha3ChunkSize content).fed)

/-- `run_inventory` computes `md5sum = self.md5(filepathname)` and then
`sha3sum = self.sha3hash(filepathname)`: two independent streaming passes
over the same file.  Total number of bytes read from the file while
computing both digests for one inventoried file. -/
def inventoryFileBytesRead (content : List Nat) : Nat :=
  (digestRun md5ChunkSize content).bytesRead + (digestRun sha3ChunkSize content).bytesRead

/-!
Inventory stage (`run_inventory`).  For each processed object, the walk
yields file basenames in traversal order.  `.DS_Store` files are removed
from disk; every other file produces one manifest data row, numbered by the
`counter` variable (incremented before the row is written).  The manifest is
written line by line to `temp_manifest.csv` in the batch directory and then
moved onto `manifest.csv` inside the object with `shutil.move` (an atomic
rename on the same filesystem).
-/

def isArtifact (name : String) : Bool := name = ".DS_Store"

/-- The walk loop of `run_inventory`: given the value of `counter` and the
remaining files, returns the artifact files removed from disk and the
numbered data rows, in traversal order. -/
def invProcess : Nat → List String → List String × List (Nat × String)
  | _, [] => ([], [])
  | c, f :: fs =>
    if isArtifact f then
      ((invProcess c fs).1.cons f, (invProcess c fs).2)
    else
      ((invProcess (c + 1) fs).1, (c + 1, f) :: (invProcess (c + 1) fs).2)

/-- Consecutive naturals `s, s+1, ..., s+n-1` (manifest row numbers). -/
def natsFrom (s : Nat) : Nat → List Nat
  | 0 => []
  | n + 1 => s :: natsFrom (s + 1) n

/-- One line of a manifest file: the header line, a data row, or the
trailing comment row. -/
inductive ManiLine where
  | header
  | row (idx : Nat) (name : String)
  | comment
deriving DecidableEq

/-- Full content of the manifest `run_inventory` writes for an object whose
walk yields `files`. -/
def manifestLines (files : List String) : List ManiLine :=
  ManiLine.header ::
    ((invProcess 0 files).2.map (fun p => ManiLine.row p.1 p.2) ++ [ManiLine.comment])

/-- Per-object filesystem operations of `run_inventory`. -/
inductive InvOp where
  | createTemp
  | writeTemp (line : ManiLine)
  | removeArtifact (name : String)
  | moveTempToFinal
deriving DecidableEq

/-- Operations of the walk loop: artifact files are removed, other files are
appended to the temp manifest as numbered rows. -/
def invFileOps : Nat → List String → List InvOp
  | _, [] => []
  | c, f :: fs =>
    if isArtifact f then InvOp.removeArtifact f :: invFileOps c fs
    else InvOp.writeTemp (ManiLine.row (c + 1) f) :: invFileOps (c + 1) fs

/-- All operations performed while the temp manifest is being produced,
before the final move. -/
def invPre (files : List String) : List InvOp :=
  InvOp.createTemp :: InvOp.writeTemp ManiLine.header ::
    (invFileOps 0 files ++ [InvOp.writeTemp ManiLine.comment])

/-- Whole per-object trace of `run_inventory` for a processed object. -/
def inv_trace (files : List String) : List InvOp :=
  invPre files ++ [InvOp.moveTempToFinal]

/-- An object that already has a `manifest.csv` is skipped (with a warning):
no operations are performed at all. -/
def inventoryObjectTrace (hasManifest : Bool) (files : List String) : List InvOp :=
  if hasManifest then [] else inv_trace files

/-- The two files the trace can touch: the temp file (`temp_manifest.csv` in
the batch directory) and the file visible under the final manifest name
(`manifest.csv` inside the object). -/
structure InvFs where
  temp : Option (List ManiLine)
  final : Option (List ManiLine)
deriving DecidableEq

def invApply (st : InvFs) : InvOp → InvFs
  | InvOp.createTemp => { st with temp := some [] }
  | InvOp.writeTemp l => { st with temp := st.temp.map (fun c => c ++ [l]) }
  | InvOp.removeArtifact _ => st
  | InvOp.moveTempToFinal => { temp := none, final := st.temp }

/-- Filesystem state after the first `k` operations of the per-object trace,
starting from an object whose final manifest name holds `old` (and no temp
file).  `k` is the crash point. -/
def invStateAt (old : Option (List ManiLine)) (files : List String) (k : Nat) : InvFs :=
  ((inventoryObjectTrace old.isSome files).take k).foldl invApply { temp := none, final := old }

/-!
Metadata stage (`meta_from_csv`).  The ledger header must equal the exact
eight-field list `verifyHeadrs`; otherwise the stage returns `[0, 0]` before
any row is read.  For each row, the skip flag is computed from the target
directory (missing directory, bag prompt, existing `metadata.csv` combined
with the run-wide `overwrite_all` flag); `firstone` guards the single
overwrite prompt.  Prompts are modelled by an answer stream `ans` indexed by
how many overwrite prompts have been asked so far, so that "asked at most
once" is visible in the state.
-/

def verifyHeadrs : List String :=
  ["System UUID", "Local ID", "Department Responsible", "Person Responsible", "Collection",
   "Brief Description", "Object URI", "Collection URI"]

/-- One ledger row together with the filesystem facts `meta_from_csv`
consults for it: whether the object directory exists, whether it looks like
a bag (a `data` subdirectory exists) and the operator's answer to the bag
prompt, whether a `metadata.csv` already exists, and whether the RDF
rendering succeeds. -/
structure MetaRow where
  foldname : String
  foldExists : Bool
  isBag : Bool
  bagAnswer : Bool
  hasMeta : Bool
  rdfOk : Bool
deriving DecidableEq

structure MetaState where
  firstone : Bool
  overwriteAll : Bool
  prompts : Nat
  nfiles : Nat
  rfiles : Nat
  writes : List String
deriving DecidableEq

def metaInit : MetaState :=
  { firstone := true, overwriteAll := false, prompts := 0, nfiles := 0, rfiles := 0, writes := [] }

/-- The body of the row loop of `meta_from_csv`. -/
def metaStep (ans : Nat → Bool) (st : MetaState) (r : MetaRow) : MetaState :=
  let skip1a : Bool := !r.foldExists
  let skip1b : Bool := if r.isBag then r.bagAnswer else skip1a
  let doPrompt : Bool := r.hasMeta && st.firstone
  let firstone2 : Bool := if doPrompt then false else st.firstone
  let owa2 : Bool := if doPrompt then ans st.prompts else st.overwriteAll
  let prompts2 : Nat := if doPrompt then st.prompts + 1 else st.prompts
  let skip1c : Bool := if r.hasMeta && !owa2 then true else skip1b
  if skip1c then
    { firstone := firstone2, overwriteAll := owa2, prompts := prompts2,
      nfiles := st.nfiles, rfiles := st.rfiles, writes := st.writes }
  else
    { firstone := firstone2, overwriteAll := owa2, prompts := prompts2,
      nfiles := st.nfiles + 1,
      rfiles := st.rfiles + (if r.rdfOk then 1 else 0),
      writes := st.writes ++ [r.foldname] }

/-- `meta_from_csv`: header validation, then the row loop. -/
def meta_from_csv (ans : Nat → Bool) (headers : List String) (rows : List MetaRow) : MetaState :=
  if headers = verifyHeadrs then rows.foldl (metaStep ans) metaInit
  else metaInit

/-!
Registration stage (`register_obj`).  For every immediate entry of the batch
directory that is a directory and contains a `metadata.csv`, the stage
unconditionally generates a fresh system identifier, rewrites the record's
first data row / first column, appends one audit-log line, re-renders the
RDF file, and renames the directory to the new identifier.  Fresh
identifiers come from `supply` indexed by how many identifiers have been
generated in the run; `t` is the run timestamp.
-/

/-- A direct entry of the batch directory: its name, whether it is a
directory, and the rows of its `metadata.csv` if one exists. -/
structure RegObject where
  name : String
  isDir : Bool
  meta : Option (List (List String))
deriving DecidableEq

structure RegResult where
  objects : List RegObject
  audit : List (List String)
  renamed : Nat
  rfiles : Nat
deriving DecidableEq

def regRun (t : String) (supply : Nat → String) : Nat → List RegObject → RegResult
  | _, [] => { objects := [], audit := [], renamed := 0, rfiles := 0 }
  | k, o :: os =>
    if o.isDir then
      match o.meta with
      | some lines =>
        let nid := supply k
        let row1 := lines.getD 1 []
        let lines2 := lines.set 1 (row1.set 0 nid)
        let logline := [nid, row1.getD 1 "", t, row1.getD 3 ""]
        let rest := regRun t supply (k + 1) os
        { objects := { name := nid, isDir := true, meta := some lines2 } :: rest.objects
        , audit := logline :: rest.audit
        , renamed := rest.renamed + 1
        , rfiles := rest.rfiles + 1 }
      | none =>
        let rest := regRun t supply k os
        { rest with objects := o :: rest.objects }
    else
      let rest := regRun t supply k os
      { rest with objects := o :: rest.objects }

def register_obj (t : String) (supply : Nat → String) (objs : List RegObject) : RegResult :=
  regRun t supply 0 objs

/-- An entry `register_obj` actually registers: a directory containing a
`metadata.csv`. -/
def regEligible (o : RegObject) : Bool := o.isDir && o.meta.isSome

def countEligible (objs : List RegObject) : Nat := (objs.filter regEligible).length

/-- A concrete batch entry: one directory with a well-formed metadata
record (header row plus one data row). -/
def regSample : RegObject :=
  { name := "objA", isDir := true
  , meta := some [["System UUID", "Local ID", "Department Responsible", "Person Responsible"],
                  ["", "localA", "deptA", "personA"]] }

/-!
Per-object operation trace of `register_obj`, in source order: read
`metadata.csv`, append the audit line to `log4preservation.csv`, rewrite
`metadata.csv` with the new identifier in the first data row's first column,
remove a stale `metadata.xml` if present, re-render it, and finally rename
the object directory to the new identifier.
-/

inductive RegOp where
  | readMeta
  | appendLog (row : List String)
  | writeMeta (rows : List (List String))
  | removeRdf
  | writeRdf
  | renameDir (oldName newName : String)
deriving DecidableEq

def isRenameOp : RegOp → Bool
  | RegOp.renameDir _ _ => true
  | _ => false

def register_obj_trace (lines : List (List String)) (hasRdf : Bool)
    (oldName nid t : String) : List RegOp :=
  RegOp.readMeta ::
  RegOp.appendLog [nid, (lines.getD 1 []).getD 1 "", t, (lines.getD 1 []).getD 3 ""] ::
  RegOp.writeMeta (lines.set 1 ((lines.getD 1 []).set 0 nid)) ::
  ((if hasRdf then [RegOp.removeRdf] else []) ++
    [RegOp.writeRdf, RegOp.renameDir oldName nid])

/-!
Archiving stage (`run_tar`).  The output directory is
`path.splitext(tarfolder)[0] + '-tarred'`; each directory entry `i` is
archived to `path.splitext(i)[0] + '.tar'` in that directory unless that
file already exists, in which case it is counted in `alreadytar` and
nothing is written.  `path.splitext` splits at the last dot unless every
character before it is a dot.
-/

def lastDotIdxAux : List Char → Nat → Option Nat → Option Nat
  | [], _, acc => acc
  | c :: t, i, acc => lastDotIdxAux t (i + 1) (if c = '.' then some i else acc)

/-- Root part of `path.splitext` for a bare name (no path separator):
everything before the last dot, unless all characters before that dot are
dots (then the whole name is the root). -/
def splitextRoot (s : String) : String :=
  match lastDotIdxAux s.toList 0 none with
  | none => s
  | some i =>
    if (s.toList.take i).any (fun c => !(c = '.')) then String.mk (s.toList.take i)
    else s

/-- Archive filename for a top-level directory entry `i`:
`path.splitext(i)[0] + '.tar'`. -/
def tarTarget (i : String) : String := splitextRoot i ++ ".tar"

/-- Output directory name: `path.splitext(tarfolder)[0] + '-tarred'`. -/
def outFolderName (tarfolder : String) : String := splitextRoot tarfolder ++ "-tarred"

structure TarEntry where
  name : String
  isDir : Bool
deriving DecidableEq

/-- State of one `run_tar` run: the contents of the output directory
(archive filename and byte content, in creation order) and the three
counters. -/
structure TarState where
  archives : List (String × List Nat)
  tarfiles : Nat
  alreadytar : Nat
  notfolder : Nat
deriving DecidableEq

def lookupA (nm : String) : List (String × List Nat) → Option (List Nat)
  | [] => none
  | (k, v) :: r => if nm = k then some v else lookupA nm r

/-- The body of the entry loop of `run_tar`; `pack` abstracts `tarfile`
serialization of a directory. -/
def tarStep (pack : String → List Nat) (st : TarState) (e : TarEntry) : TarState :=
  if e.isDir then
    match lookupA (tarTarget e.name) st.archives with
    | some _ => { st with alreadytar := st.alreadytar + 1 }
    | none =>
      { st with archives := st.archives ++ [(tarTarget e.name, pack e.name)]
              , tarfiles := st.tarfiles + 1 }
  else
    { st with notfolder := st.notfolder + 1 }

def run_tar (pack : String → List Nat) (init : List (String × List Nat))
    (entries : List TarEntry) : TarState :=
  entries.foldl (tarStep pack) { archives := init, tarfiles := 0, alreadytar := 0, notfolder := 0 }

/-!
Pre-Pack restructuring (`pre_pack`).  For each direct subdirectory of the
batch root: `shutil.copytree` copies its entire current contents into a
staging directory `temptemptemp` inside it; then every other entry is
pruned — subdirectories are removed with `shutil.rmtree` unconditionally,
plain files are removed unless their name contains the substring `meta`;
finally the staging copy is renamed to the object's own base name.
-/

def startsWithChars : List Char → List Char → Bool
  | [], _ => true
  | _ :: _, [] => false
  | p :: ps, c :: cs => p = c && startsWithChars ps cs

def containsAux (pat : List Char) : List Char → Bool
  | [] => pat.isEmpty
  | c :: t => startsWithChars pat (c :: t) || containsAux pat t

/-- Python's substring test `pat in s`. -/
def strContains (s pat : String) : Bool := containsAux pat.toList s.toList

/-- A direct entry of an object directory. -/
structure PEntry where
  name : String
  isDir : Bool
deriving DecidableEq

/-- The prune decision of `pre_pack` for one entry of the object directory:
the staging directory itself is kept, every other subdirectory is removed,
and a plain file is removed exactly when its name does not contain
`meta`. -/
def prePackRemoves (e : PEntry) : Bool :=
  if e.name = "temptemptemp" then false
  else if e.isDir then true
  else !(strContains e.name "meta")

/-- Modelled from the claim's words, for comparison with `prePackRemoves`:
"remove everything else from the original directory except anything whose
name contains a metadata-marker substring" — the exemption applies to every
entry, directories included. -/
def claimRemoves (e : PEntry) : Bool :=
  if e.name = "temptemptemp" then false else !(strContains e.name "meta")

inductive PackOp where
  | copyTree (snapshot : List PEntry)
  | rmtree (name : String)
  | removeFile (name : String)
  | renameStaging (toName : String)
deriving DecidableEq

def isPruneOp : PackOp → Bool
  | PackOp.rmtree _ => true
  | PackOp.removeFile _ => true
  | _ => false

/-- Operations of the prune loop of `pre_pack`, in listing order. -/
def pruneOps : List PEntry → List PackOp
  | [] => []
  | e :: es =>
    if e.name = "temptemptemp" then pruneOps es
    else if e.isDir then PackOp.rmtree e.name :: pruneOps es
    else if strContains e.name "meta" then pruneOps es
    else PackOp.removeFile e.name :: pruneOps es

/-- Whole per-object trace of `pre_pack`: copy, prune, rename. -/
def pre_pack_obj_trace (children : List PEntry) (base : String) : List PackOp :=
  PackOp.copyTree children :: (pruneOps children ++ [PackOp.renameStaging base])

/-- State of one object directory during `pre_pack`: its remaining original
entries, the staging copy if present, and the final nested directory if the
rename has happened. -/
structure ObjState where
  entries : List PEntry
  staging : Option (List PEntry)
  nested : Option (String × List PEntry)
deriving DecidableEq

def packApply (st : ObjState) : PackOp → ObjState
  | PackOp.copyTree snap => { st with staging := some snap }
  | PackOp.rmtree n => { st with entries := st.entries.filter (fun e => !(e.name = n)) }
  | PackOp.removeFile n => { st with entries := st.entries.filter (fun e => !(e.name = n)) }
  | PackOp.renameStaging b =>
    { st with staging := none
            , nested := match st.staging with
                        | some s => some (b, s)
                        | none => st.nested }

/-- Object state after the first `k` operations of the `pre_pack` trace. -/
def prePackStateAt (children : List PEntry) (base : String) (k : Nat) : ObjState :=
  ((pre_pack_obj_trace children base).take k).foldl packApply
    { entries := children, staging := none, nested := none }

/-- Object state after the whole `pre_pack` trace. -/
def prePackFinal (children : List PEntry) (base : String) : ObjState :=
  (pre_pack_obj_trace children base).foldl packApply
    { entries := children, staging := none, nested := none }

/-- Names removed by the prune loop. -/
def removedNames : List PEntry → List String
  | [] => []
  | e :: es => if prePackRemoves e then e.name :: removedNames es else removedNames es

/-- A ledger row whose object already has a `metadata.csv`. -/
def metaRowSample : MetaRow :=
  { foldname := "obj1", foldExists := true, isBag := false, bagAnswer := false,
    hasMeta := true, rdfOk := true }

theorem chunksAux_flatten (n : Nat) (hn : 0 < n) :
    ∀ (fuel : Nat) (l : List Nat), l.length ≤ fuel → (chunksAux n fuel l).flatten = l := by
  intro fuel
  induction fuel with
  | zero =>
    intro l h
    have hl : l = [] := List.length_eq_zero.mp (Nat.le_zero.mp h)
    simp [hl, chunksAux]
  | succ fuel ih =>
    intro l h
    match l with
    | [] => simp [chunksAux]
    | x :: xs =>
      have hstep : (chunksAux n (fuel + 1) (x :: xs)) =
          (x :: xs).take n :: chunksAux n fuel ((x :: xs).drop n) := rfl
      rw [hstep]
      have hflat : ((x :: xs).take n :: chunksAux n fuel ((x :: xs).drop n)).flatten =
          (x :: xs).take n ++ (chunksAux n fuel ((x :: xs).drop n)).flatten := rfl
      rw [hflat, ih ((x :: xs).drop n) ?hlen, List.take_append_drop]
      case hlen =>
        have hd : ((x :: xs).drop n).length = (x :: xs).length - n := List.length_drop n (x :: xs)
        have hxl : (x :: xs).length ≤ fuel + 1 := h
        omega

theorem chunks_flatten (n : Nat) (hn : 0 < n) (l : List Nat) : (chunks n l).flatten = l :=
  chunksAux_flatten n hn l.length l le_rfl

theorem foldl_append_flatten (L : List (List Nat)) (acc : List Nat) :
    L.foldl (fun a b => a ++ b) acc = acc ++ L.flatten := by
  induction L generalizing acc with
  | nil => simp
  | cons a L ih => simp [ih, List.append_assoc]

theorem hexDigit_lower (n : Nat) : ((hexDigit n).isDigit || (hexDigit n).isLower) = true := by
  unfold hexDigit
  split <;> decide

theorem hexEncode_lower (l : List Nat) :
    (hexEncode l).all (fun c => c.isDigit || c.isLower) = true := by
  induction l with
  | nil => decide
  | cons b l ih =>
    have hb : (hexEncode (b :: l)) = hexByte b ++ hexEncode l := rfl
    rw [hb, List.all_append, ih]
    simp [hexByte, hexDigit_lower]

theorem digestRun_fed (n : Nat) (hn : 0 < n) (content : List Nat) :
    (digestRun n content).fed = content := by
  show (chunks n content).foldl (fun a b => a ++ b) [] = content
  rw [foldl_append_flatten, chunks_flatten n hn]
  rfl

theorem digestRun_bytesRead (n : Nat) (hn : 0 < n) (content : List Nat) :
    (digestRun n content).bytesRead = content.length := by
  show ((chunks n content).map List.length).sum = content.length
  rw [← List.length_flatten, chunks_flatten n hn]

theorem invProcess_spec (files : List String) : ∀ c : Nat,
    (invProcess c files).1 = files.filter (fun f => isArtifact f) ∧
    ((invProcess c files).2).map Prod.snd = files.filter (fun f => !(isArtifact f)) ∧
    ((invProcess c files).2).map Prod.fst =
      natsFrom (c + 1) ((files.filter (fun f => !(isArtifact f))).length) := by
  induction files with
  | nil => intro c; simp [invProcess, natsFrom]
  | cons f fs ih =>
    intro c
    by_cases hf : isArtifact f
    · have h := ih c
      simp [invProcess, hf, h.1, h.2.1, h.2.2]
    · have h := ih (c + 1)
      simp only [invProcess, hf, if_false, Bool.false_eq_true, List.map_cons]
      refine ⟨by simp [hf, h.1], by simp [hf, h.2.1], ?_⟩
      simp only [List.filter_cons, hf, Bool.not_false, if_true]
      rw [List.length_cons]
      show (c + 1) :: ((invProcess (c + 1) fs).2).map Prod.fst =
        natsFrom (c + 1) ((fs.filter (fun f => !(isArtifact f))).length + 1)
      rw [h.2.2]
      rfl

theorem foldl_no_move_final (ops : List InvOp) (st : InvFs)
    (h : InvOp.moveTempToFinal ∉ ops) : (ops.foldl invApply st).final = st.final := by
  induction ops generalizing st with
  | nil => rfl
  | cons op ops ih =>
    rw [List.mem_cons, not_or] at h
    rw [List.foldl_cons, ih _ h.2]
    cases op with
    | createTemp => rfl
    | writeTemp l => rfl
    | removeArtifact n => rfl
    | moveTempToFinal => exact absurd rfl h.1

theorem move_not_mem_invFileOps (files : List String) : ∀ c : Nat,
    InvOp.moveTempToFinal ∉ invFileOps c files := by
  induction files with
  | nil => intro c; simp [invFileOps]
  | cons f fs ih =>
    intro c
    by_cases hf : isArtifact f <;> simp [invFileOps, hf, ih]

theorem move_not_mem_invPre (files : List String) :
    InvOp.moveTempToFinal ∉ invPre files := by
  simp [invPre, move_not_mem_invFileOps files 0]

theorem take_append_le {α : Type} (l l2 : List α) (k : Nat) (h : k ≤ l.length) :
    (l ++ l2).take k = l.take k := by
  induction l generalizing k with
  | nil =>
    have : k = 0 := Nat.le_zero.mp h
    simp [this]
  | cons a l ih =>
    cases k with
    | zero => simp
    | succ k =>
      simp only [List.cons_append, List.take_succ_cons]
      rw [ih k (Nat.le_of_succ_le_succ h)]

theorem take_of_le_length {α : Type} (l : List α) (k : Nat) (h : l.length ≤ k) :
    l.take k = l := by
  induction l generalizing k with
  | nil => simp
  | cons a l ih =>
    cases k with
    | zero => exact absurd h (by simp)
    | succ k =>
      simp only [List.take_succ_cons]
      rw [ih k (Nat.le_of_succ_le_succ h)]

theorem all_take {α : Type} (p : α → Bool) (l : List α) (j : Nat) (h : l.all p = true) :
    (l.take j).all p = true := by
  rw [List.all_eq_true] at h ⊢
  intro x hx
  exact h x (List.take_subset j l hx)

theorem invFileOps_foldl (files : List String) :
    ∀ (c : Nat) (acc : List ManiLine) (fin : Option (List ManiLine)),
    List.foldl invApply { temp := some acc, final := fin } (invFileOps c files) =
      { temp := some (acc ++ (invProcess c files).2.map (fun p => ManiLine.row p.1 p.2))
      , final := fin } := by
  induction files with
  | nil => intro c acc fin; simp [invFileOps, invProcess]
  | cons f fs ih =>
    intro c acc fin
    by_cases hf : isArtifact f
    · simp only [invFileOps, hf, if_true, List.foldl_cons]
      have hop : invApply { temp := some acc, final := fin } (InvOp.removeArtifact f) =
          { temp := some acc, final := fin } := rfl
      rw [hop, ih c acc fin]
      simp [invProcess, hf]
    · simp only [invFileOps, hf, if_false, Bool.false_eq_true, List.foldl_cons]
      have hop : invApply { temp := some acc, final := fin }
            (InvOp.writeTemp (ManiLine.row (c + 1) f)) =
          { temp := some (acc ++ [ManiLine.row (c + 1) f]), final := fin } := rfl
      rw [hop, ih (c + 1) (acc ++ [ManiLine.row (c + 1) f]) fin]
      simp [invProcess, hf]

theorem inv_full_run (files : List String) :
    (inv_trace files).foldl invApply { temp := none, final := none } =
      { temp := none, final := some (manifestLines files) } := by
  rw [inv_trace, List.foldl_append]
  have h1 : (invPre files).foldl invApply { temp := none, final := none } =
      { temp := some (manifestLines files), final := none } := by
    rw [invPre]
    simp only [List.foldl_cons]
    have hc : invApply { temp := none, final := none } InvOp.createTemp =
        { temp := some [], final := none } := rfl
    have hh : invApply { temp := some ([] : List ManiLine), final := none }
          (InvOp.writeTemp ManiLine.header) =
        { temp := some [ManiLine.header], final := none } := rfl
    rw [hc, hh, List.foldl_append, invFileOps_foldl files 0 [ManiLine.header] none]
    have hcm : invApply
          { temp := some ([ManiLine.header] ++
              (invProcess 0 files).2.map (fun p => ManiLine.row p.1 p.2))
          , final := none } (InvOp.writeTemp ManiLine.comment) =
        { temp := some (([ManiLine.header] ++
              (invProcess 0 files).2.map (fun p => ManiLine.row p.1 p.2)) ++ [ManiLine.comment])
        , final := none } := rfl
    simp only [List.foldl_cons, List.foldl_nil, hcm]
    simp [manifestLines]
  rw [h1]
  rfl

theorem metaStep_ctl (ans : Nat → Bool) (st : MetaState) (r : MetaRow) :
    (metaStep ans st r).firstone = (if r.hasMeta && st.firstone then false else st.firstone) ∧
    (metaStep ans st r).prompts =
      (if r.hasMeta && st.firstone then st.prompts + 1 else st.prompts) ∧
    (metaStep ans st r).overwriteAll =
      (if r.hasMeta && st.firstone then ans st.prompts else st.overwriteAll) := by
  unfold metaStep
  refine ⟨?_, ?_, ?_⟩
  · rw [apply_ite MetaState.firstone]
    simp
  · rw [apply_ite MetaState.prompts]
    simp
  · rw [apply_ite MetaState.overwriteAll]
    simp

theorem metaStep_firstone_false (ans : Nat → Bool) (st : MetaState) (r : MetaRow)
    (h : st.firstone = false) :
    (metaStep ans st r).firstone = false ∧
    (metaStep ans st r).prompts = st.prompts ∧
    (metaStep ans st r).overwriteAll = st.overwriteAll := by
  have hc := metaStep_ctl ans st r
  rw [h] at hc
  simpa using hc

theorem metaFold_noprompt (ans : Nat → Bool) (rows : List MetaRow) :
    ∀ st : MetaState, st.firstone = false →
    (rows.foldl (metaStep ans) st).prompts = st.prompts ∧
    (rows.foldl (metaStep ans) st).firstone = false := by
  induction rows with
  | nil => intro st h; exact ⟨rfl, h⟩
  | cons r rows ih =>
    intro st h
    rw [List.foldl_cons]
    have hs := metaStep_firstone_false ans st r h
    have h2 := ih (metaStep ans st r) hs.1
    exact ⟨h2.1.trans hs.2.1, h2.2⟩

theorem metaFold_prompts (ans : Nat → Bool) (rows : List MetaRow) :
    ∀ st : MetaState, st.firstone = true →
    (rows.foldl (metaStep ans) st).prompts =
      st.prompts + (if rows.any (fun r => r.hasMeta) then 1 else 0) := by
  induction rows with
  | nil => intro st _; simp
  | cons r rows ih =>
    intro st h
    rw [List.foldl_cons]
    have hc := metaStep_ctl ans st r
    rw [h] at hc
    by_cases hm : r.hasMeta
    · rw [hm] at hc
      simp only [Bool.and_self, if_true] at hc
      rw [(metaFold_noprompt ans rows _ hc.1).1, hc.2.1]
      simp [hm]
    · have hm2 : r.hasMeta = false := Bool.not_eq_true _ |>.mp hm
      rw [hm2] at hc
      simp only [Bool.false_and, Bool.false_eq_true, if_false] at hc
      rw [ih _ hc.1, hc.2.1]
      simp [hm2]

theorem metaFold_ans (ans ans2 : Nat → Bool) (h0 : ans 0 = ans2 0) (rows : List MetaRow) :
    ∀ st : MetaState, (st.firstone = true → st.prompts = 0) →
    rows.foldl (metaStep ans) st = rows.foldl (metaStep ans2) st := by
  induction rows with
  | nil => intro st _; rfl
  | cons r rows ih =>
    intro st hinv
    rw [List.foldl_cons, List.foldl_cons]
    by_cases hfo : st.firstone
    · have hz : st.prompts = 0 := hinv hfo
      have hstep : metaStep ans st r = metaStep ans2 st r := by
        unfold metaStep
        rw [hz, h0]
      rw [hstep]
      apply ih
      intro hfo2
      have hc := metaStep_ctl ans2 st r
      rw [hfo, hfo2] at hc
      by_cases hm : r.hasMeta
      · rw [hm] at hc
        simp at hc
      · have hm2 : r.hasMeta = false := Bool.not_eq_true _ |>.mp hm
        rw [hm2] at hc
        simp only [Bool.false_and, Bool.false_eq_true, if_false] at hc
        rw [hc.2.1, hz]
    · have hfo2 : st.firstone = false := Bool.not_eq_true _ |>.mp hfo
      have hstep : metaStep ans st r = metaStep ans2 st r := by
        simp [metaStep, hfo2]
      rw [hstep]
      apply ih
      intro hfo3
      have hff := (metaStep_firstone_false ans2 st r hfo2).1
      rw [hfo3] at hff
      exact absurd hff (by simp)

theorem regRun_renamed (t : String) (supply : Nat → String) (objs : List RegObject) :
    ∀ k : Nat, (regRun t supply k objs).renamed = countEligible objs ∧
      (regRun t supply k objs).audit.length = countEligible objs ∧
      countEligible (regRun t supply k objs).objects = countEligible objs := by
  induction objs with
  | nil => intro k; simp [regRun, countEligible]
  | cons o os ih =>
    intro k
    by_cases hd : o.isDir
    · cases hm : o.meta with
      | some lines =>
        have h := ih (k + 1)
        have hstep : regRun t supply k (o :: os) =
            { objects := RegObject.mk (supply k) true
                  (some (lines.set 1 ((lines.getD 1 []).set 0 (supply k)))) ::
                  (regRun t supply (k + 1) os).objects
            , audit := [supply k, (lines.getD 1 []).getD 1 "", t, (lines.getD 1 []).getD 3 ""] ::
                  (regRun t supply (k + 1) os).audit
            , renamed := (regRun t supply (k + 1) os).renamed + 1
            , rfiles := (regRun t supply (k + 1) os).rfiles + 1 } := by
          simp only [regRun, hd, hm, if_true]
        have hcons : countEligible (o :: os) = countEligible os + 1 := by
          simp [countEligible, regEligible, hd, hm]
        rw [hstep, hcons]
        refine ⟨?_, ?_, ?_⟩
        · show (regRun t supply (k + 1) os).renamed + 1 = countEligible os + 1
          rw [h.1]
        · show ([supply k, (lines.getD 1 []).getD 1 "", t, (lines.getD 1 []).getD 3 ""] ::
              (regRun t supply (k + 1) os).audit).length = countEligible os + 1
          rw [List.length_cons, h.2.1]
        · show countEligible (RegObject.mk (supply k) true
              (some (lines.set 1 ((lines.getD 1 []).set 0 (supply k)))) ::
              (regRun t supply (k + 1) os).objects) = countEligible os + 1
          have hflt : countEligible (RegObject.mk (supply k) true
              (some (lines.set 1 ((lines.getD 1 []).set 0 (supply k)))) ::
              (regRun t supply (k + 1) os).objects) =
              countEligible (regRun t supply (k + 1) os).objects + 1 := by
            simp [countEligible, regEligible]
          rw [hflt, h.2.2]
      | none =>
        have h := ih k
        have hstep : regRun t supply k (o :: os) =
            { regRun t supply k os with objects := o :: (regRun t supply k os).objects } := by
          simp only [regRun, hd, hm, if_true]
        have hcons : countEligible (o :: os) = countEligible os := by
          simp [countEligible, regEligible, hd, hm]
        rw [hstep, hcons]
        have hflt : countEligible (o :: (regRun t supply k os).objects) =
            countEligible (regRun t supply k os).objects := by
          simp [countEligible, regEligible, hd, hm]
        exact ⟨h.1, h.2.1, hflt.trans h.2.2⟩
    · have h := ih k
      have hd2 : o.isDir = false := Bool.not_eq_true _ |>.mp hd
      have hstep : regRun t supply k (o :: os) =
          { regRun t supply k os with objects := o :: (regRun t supply k os).objects } := by
        simp only [regRun, hd2, Bool.false_eq_true, if_false]
      have hcons : countEligible (o :: os) = countEligible os := by
        simp [countEligible, regEligible, hd2]
      rw [hstep, hcons]
      have hflt : countEligible (o :: (regRun t supply k os).objects) =
          countEligible (regRun t supply k os).objects := by
        simp [countEligible, regEligible, hd2]
      exact ⟨h.1, h.2.1, hflt.trans h.2.2⟩

theorem lookupA_append (nm : String) (l l2 : List (String × List Nat)) (v : List Nat)
    (h : lookupA nm l = some v) : lookupA nm (l ++ l2) = some v := by
  induction l with
  | nil => exact absurd h (by simp [lookupA])
  | cons p l ih =>
    obtain ⟨k, w⟩ := p
    by_cases hk : nm = k
    · simp only [lookupA, hk, if_true] at h
      simp [lookupA, hk, h]
    · simp only [lookupA, hk, if_false] at h
      simp [lookupA, hk, ih h]

theorem tarStep_preserves (pack : String → List Nat) (st : TarState) (e : TarEntry)
    (nm : String) (v : List Nat) (h : lookupA nm st.archives = some v) :
    lookupA nm (tarStep pack st e).archives = some v := by
  unfold tarStep
  by_cases hd : e.isDir
  · simp only [hd, if_true]
    cases hl : lookupA (tarTarget e.name) st.archives with
    | some w => simpa using h
    | none =>
      show lookupA nm (st.archives ++ [(tarTarget e.name, pack e.name)]) = some v
      exact lookupA_append nm st.archives _ v h
  · have hd2 : e.isDir = false := Bool.not_eq_true _ |>.mp hd
    simpa [hd2] using h

theorem tarFold_preserves (pack : String → List Nat) (entries : List TarEntry) :
    ∀ (st : TarState) (nm : String) (v : List Nat), lookupA nm st.archives = some v →
    lookupA nm (entries.foldl (tarStep pack) st).archives = some v := by
  induction entries with
  | nil => intro st nm v h; exact h
  | cons e entries ih =>
    intro st nm v h
    rw [List.foldl_cons]
    exact ih _ nm v (tarStep_preserves pack st e nm v h)

theorem pruneOps_all (children : List PEntry) : (pruneOps children).all isPruneOp = true := by
  induction children with
  | nil => rfl
  | cons e es ih =>
    unfold pruneOps
    by_cases h1 : e.name = "temptemptemp"
    · simpa [h1] using ih
    · by_cases h2 : e.isDir
      · simp [h1, h2, isPruneOp, ih]
      · by_cases h3 : strContains e.name "meta" <;>
          simp [h1, h2, h3, isPruneOp, ih]

theorem foldl_prune_ctl (ops : List PackOp) :
    ∀ st : ObjState, ops.all isPruneOp = true →
    (ops.foldl packApply st).staging = st.staging ∧
    (ops.foldl packApply st).nested = st.nested := by
  induction ops with
  | nil => intro st _; exact ⟨rfl, rfl⟩
  | cons op ops ih =>
    intro st h
    rw [List.all_cons, Bool.and_eq_true] at h
    rw [List.foldl_cons]
    have h2 := ih (packApply st op) h.2
    cases op with
    | copyTree snap => exact absurd h.1 (by simp [isPruneOp])
    | rmtree n => exact ⟨h2.1, h2.2⟩
    | removeFile n => exact ⟨h2.1, h2.2⟩
    | renameStaging b => exact absurd h.1 (by simp [isPruneOp])

theorem foldl_prune_entries (children : List PEntry) :
    ∀ st : ObjState,
    ((pruneOps children).foldl packApply st).entries =
      st.entries.filter (fun e => !((removedNames children).contains e.name)) := by
  induction children with
  | nil =>
    intro st
    simp [pruneOps, removedNames, List.filter]
  | cons c cs ih =>
    intro st
    by_cases h1 : c.name = "temptemptemp"
    · have hrm : prePackRemoves c = false := by simp [prePackRemoves, h1]
      rw [show pruneOps (c :: cs) = pruneOps cs from by simp [pruneOps, h1],
          show removedNames (c :: cs) = removedNames cs from by
            simp [removedNames, hrm]]
      exact ih st
    · by_cases h2 : c.isDir
      · have hrm : prePackRemoves c = true := by simp [prePackRemoves, h1, h2]
        rw [show pruneOps (c :: cs) = PackOp.rmtree c.name :: pruneOps cs from by
              simp [pruneOps, h1, h2],
            show removedNames (c :: cs) = c.name :: removedNames cs from by
              simp [removedNames, hrm]]
        rw [List.foldl_cons]
        have happ : packApply st (PackOp.rmtree c.name) =
            { st with entries := st.entries.filter (fun e => !(e.name = c.name)) } := rfl
        rw [happ, ih]
        show (st.entries.filter (fun e => !(e.name = c.name))).filter
            (fun e => !((removedNames cs).contains e.name)) =
          st.entries.filter (fun e => !((c.name :: removedNames cs).contains e.name))
        rw [List.filter_filter]
        apply List.filter_congr
        intro e _
        by_cases hn : e.name = c.name <;> simp [hn, List.contains_cons]
      · have hd2 : c.isDir = false := Bool.not_eq_true _ |>.mp h2
        by_cases h3 : strContains c.name "meta"
        · have hrm : prePackRemoves c = false := by simp [prePackRemoves, h1, hd2, h3]
          rw [show pruneOps (c :: cs) = pruneOps cs from by simp [pruneOps, h1, hd2, h3],
              show removedNames (c :: cs) = removedNames cs from by
                simp [removedNames, hrm]]
          exact ih st
        · have h32 : strContains c.name "meta" = false := Bool.not_eq_true _ |>.mp h3
          have hrm : prePackRemoves c = true := by simp [prePackRemoves, h1, hd2, h32]
          rw [show pruneOps (c :: cs) = PackOp.removeFile c.name :: pruneOps cs from by
                simp [pruneOps, h1, hd2, h32],
              show removedNames (c :: cs) = c.name :: removedNames cs from by
                simp [removedNames, hrm]]
          rw [List.foldl_cons]
          have happ : packApply st (PackOp.removeFile c.name) =
              { st with entries := st.entries.filter (fun e => !(e.name = c.name)) } := rfl
          rw [happ, ih]
          show (st.entries.filter (fun e => !(e.name = c.name))).filter
              (fun e => !((removedNames cs).contains e.name)) =
            st.entries.filter (fun e => !((c.name :: removedNames cs).contains e.name))
          rw [List.filter_filter]
          apply List.filter_congr
          intro e _
          by_cases hn : e.name = c.name <;> simp [hn, List.contains_cons]

theorem mem_removedNames (children : List PEntry) (e : PEntry) (he : e ∈ children)
    (hrm : prePackRemoves e = true) : e.name ∈ removedNames children := by
  induction children with
  | nil => cases he
  | cons c cs ih =>
    rcases List.mem_cons.mp he with h | h
    · subst h
      simp [removedNames, hrm]
    · unfold removedNames
      by_cases hc : prePackRemoves c <;> simp [hc, ih h]

theorem removedNames_mem (children : List PEntry) (y : String)
    (hy : y ∈ removedNames children) :
    ∃ c ∈ children, prePackRemoves c = true ∧ c.name = y := by
  induction children with
  | nil => cases hy
  | cons c cs ih =>
    unfold removedNames at hy
    by_cases hc : prePackRemoves c
    · rw [if_pos hc] at hy
      rcases List.mem_cons.mp hy with h | h
      · exact ⟨c, List.mem_cons_self c cs, hc, h.symm⟩
      · obtain ⟨d, hd, hdr, hdn⟩ := ih h
        exact ⟨d, List.mem_cons_of_mem c hd, hdr, hdn⟩
    · rw [if_neg hc] at hy
      obtain ⟨d, hd, hdr, hdn⟩ := ih hy
      exact ⟨d, List.mem_cons_of_mem c hd, hdr, hdn⟩

theorem name_inj_of_nodup (l : List PEntry) (hnd : (l.map PEntry.name).Nodup) :
    ∀ a ∈ l, ∀ b ∈ l, a.name = b.name → a = b := by
  induction l with
  | nil => intro a ha; cases ha
  | cons x xs ih =>
    rw [List.map_cons, List.nodup_cons] at hnd
    intro a ha b hb hab
    rcases List.mem_cons.mp ha with h1 | h1 <;> rcases List.mem_cons.mp hb with h2 | h2
    · rw [h1, h2]
    · subst h1
      exact absurd (hab ▸ List.mem_map_of_mem PEntry.name h2) hnd.1
    · subst h2
      exact absurd (hab ▸ List.mem_map_of_mem PEntry.name h1) hnd.1
    · exact ih hnd.2 a h1 b h2 hab

theorem removedNames_filter (children : List PEntry)
    (hnd : (children.map PEntry.name).Nodup) :
    children.filter (fun e => !((removedNames children).contains e.name)) =
      children.filter (fun e => !(prePackRemoves e)) := by
  apply List.filter_congr
  intro e he
  by_cases hrm : prePackRemoves e
  · have hmem : e.name ∈ removedNames children := mem_removedNames children e he hrm
    simp [hrm, hmem]
  · have hrm2 : prePackRemoves e = false := Bool.not_eq_true _ |>.mp hrm
    have hnmem : e.name ∉ removedNames children := by
      intro hy
      obtain ⟨c, hc, hcr, hcn⟩ := removedNames_mem children e.name hy
      have : c = e := name_inj_of_nodup children hnd c hc e he hcn
      rw [this] at hcr
      rw [hrm2] at hcr
      exact absurd hcr (by simp)
    simp [hrm2, hnmem]

/-!
The claims.
-/

/-- Claim C1, counterexample.  Registration is not idempotent: on a batch
with one object that has already been registered (its directory renamed and
its record rewritten by a first run), a second run of `register_obj`
performs one more rename and appends one more audit entry, not zero — the
code never checks whether an object already bears a system identifier. -/
theorem c1_counterexample :
    (register_obj "t2" (fun _ => "vtdata_b")
      (register_obj "t1" (fun _ => "vtdata_a") [regSample]).objects).renamed = 1 ∧
    (register_obj "t2" (fun _ => "vtdata_b")
      (register_obj "t1" (fun _ => "vtdata_a") [regSample]).objects).audit.length = 1 ∧
    ¬ (1 : Nat) = 0 := by
  decide

/-- Claim C1, amended.  Every run of the Registration stage — first or
repeated — re-identifies every directory that contains a metadata record:
it performs exactly one rename and appends exactly one audit entry per such
object.  In particular a second run over the output of a first run repeats
all renames and audit appends instead of performing zero. -/
theorem c1_register_not_idempotent (t t2 : String) (s s2 : Nat → String)
    (objs : List RegObject) :
    (register_obj t s objs).renamed = countEligible objs ∧
    (register_obj t2 s2 (register_obj t s objs).objects).renamed = countEligible objs ∧
    (register_obj t2 s2 (register_obj t s objs).objects).audit.length = countEligible objs := by
  have h1 := regRun_renamed t s objs 0
  have h2 := regRun_renamed t2 s2 (register_obj t s objs).objects 0
  exact ⟨h1.1, h2.1.trans h1.2.2, h2.2.1.trans h1.2.2⟩

/-- Claim C2, counterexample.  Computing both digests for one inventoried
file does not read the file exactly once: `run_inventory` calls `md5` and
then `sha3hash`, two separate streaming passes, so a 1-byte file has 2
bytes read in total, not 1. -/
theorem c2_counterexample :
    inventoryFileBytesRead [7] = 2 ∧
    ([7] : List Nat).length = 1 ∧
    ¬ inventoryFileBytesRead [7] = ([7] : List Nat).length := by
  decide

/-- Claim C2, amended.  Each digest function reads the file in fixed-size
chunks exactly once for its own digest (4096 bytes for `md5`, the default
buffer size for `sha3hash`), feeding every byte of the file to its
accumulator exactly once, and returns a lowercase hexadecimal encoding;
but the two digests are computed in two separate passes, so each
inventoried file is read twice in total, once per digest. -/
theorem c2_per_digest_streaming (H : List Nat → List Nat) (content : List Nat) :
    (digestRun md5ChunkSize content).fed = content ∧
    (digestRun sha3ChunkSize content).fed = content ∧
    (digestRun md5ChunkSize content).bytesRead = content.length ∧
    (digestRun sha3ChunkSize content).bytesRead = content.length ∧
    (md5 H content).all (fun c => c.isDigit || c.isLower) = true ∧
    (sha3hash H content).all (fun c => c.isDigit || c.isLower) = true ∧
    inventoryFileBytesRead content = 2 * content.length := by
  have h1 := digestRun_fed md5ChunkSize (by decide) content
  have h2 := digestRun_fed sha3ChunkSize (by decide) content
  have h3 := digestRun_bytesRead md5ChunkSize (by decide) content
  have h4 := digestRun_bytesRead sha3ChunkSize (by decide) content
  refine ⟨h1, h2, h3, h4, hexEncode_lower _, hexEncode_lower _, ?_⟩
  unfold inventoryFileBytesRead
  rw [h3, h4]
  omega

/-- Claim C3.  For every crash point `k` of the per-object Inventory trace,
the file visible under the final manifest name is unchanged (the old
manifest if the object was skipped for already having one, nothing
otherwise) until the single final move, after which it is the complete
manifest: no truncated manifest is ever visible under the final name. -/
theorem c3_manifest_atomic (old : Option (List ManiLine)) (files : List String) (k : Nat) :
    (invStateAt old files k).final =
      (if k < (inventoryObjectTrace old.isSome files).length then old
       else if old.isSome then old else some (manifestLines files)) := by
  cases old with
  | some m =>
    show (((inventoryObjectTrace (some m).isSome files).take k).foldl invApply
        { temp := none, final := some m }).final = _
    have ht : inventoryObjectTrace (some m).isSome files = [] := rfl
    rw [ht]
    simp
  | none =>
    show (((inventoryObjectTrace (none : Option (List ManiLine)).isSome files).take k).foldl
        invApply { temp := none, final := none }).final = _
    have ht : inventoryObjectTrace (none : Option (List ManiLine)).isSome files =
        inv_trace files := rfl
    rw [ht]
    simp only [Option.isSome_none, Bool.false_eq_true, if_false]
    by_cases hk : k < (inv_trace files).length
    · rw [if_pos hk]
      have hlen : (inv_trace files).length = (invPre files).length + 1 := by
        rw [inv_trace]
        simp
    
      have hkle : k ≤ (invPre files).length := by omega
      rw [inv_trace, take_append_le _ _ k hkle]
      apply foldl_no_move_final
      intro hmem
      exact move_not_mem_invPre files (List.take_subset k (invPre files) hmem)
    · rw [if_neg hk]
      have hge : (inv_trace files).length ≤ k := Nat.le_of_not_lt hk
      rw [take_of_le_length _ _ hge, inv_full_run]

/-- Claim C4.  In the per-object Registration trace the directory rename is
the very last filesystem operation: it is the last element of the trace, no
other operation in the trace is a rename, and the audit append, the
metadata rewrite (first data row, first column) and the re-rendering all
occur strictly before it — so a crash can leave an updated-but-unrenamed
object but never a renamed-but-unupdated one. -/
theorem c4_rename_is_last (lines : List (List String)) (hasRdf : Bool)
    (oldName nid t : String) :
    (register_obj_trace lines hasRdf oldName nid t).getLast? =
      some (RegOp.renameDir oldName nid) ∧
    ((register_obj_trace lines hasRdf oldName nid t).dropLast.all
      (fun op => !(isRenameOp op))) = true ∧
    RegOp.appendLog [nid, (lines.getD 1 []).getD 1 "", t, (lines.getD 1 []).getD 3 ""] ∈
      (register_obj_trace lines hasRdf oldName nid t).dropLast ∧
    RegOp.writeMeta (lines.set 1 ((lines.getD 1 []).set 0 nid)) ∈
      (register_obj_trace lines hasRdf oldName nid t).dropLast ∧
    RegOp.writeRdf ∈ (register_obj_trace lines hasRdf oldName nid t).dropLast := by
  cases hasRdf <;> refine ⟨rfl, rfl, ?_, ?_, ?_⟩ <;> simp [register_obj_trace]

/-- Claim C5.  A master ledger whose header row is not exactly the required
eight-field list makes the Metadata stage return the count pair `(0, 0)`
with zero records written: no row is processed at all. -/
theorem c5_header_mismatch (ans : Nat → Bool) (headers : List String) (rows : List MetaRow)
    (h : ¬ headers = verifyHeadrs) :
    (meta_from_csv ans headers rows).nfiles = 0 ∧
    (meta_from_csv ans headers rows).rfiles = 0 ∧
    (meta_from_csv ans headers rows).writes = [] := by
  unfold meta_from_csv
  rw [if_neg h]
  exact ⟨rfl, rfl, rfl⟩

/-- Claim C5, witness: a ledger missing seven of the required columns. -/
theorem c5_header_mismatch_witness :
    (meta_from_csv (fun _ => true) ["System UUID"] []).nfiles = 0 ∧
    (meta_from_csv (fun _ => true) ["System UUID"] []).rfiles = 0 ∧
    (meta_from_csv (fun _ => true) ["System UUID"] []).writes = [] :=
  c5_header_mismatch (fun _ => true) ["System UUID"] [] (by decide)

/-- Claim C6.  For an object whose walk yields `files`, the manifest's data
rows are exactly the non-artifact files in traversal order, numbered
1..N; the manifest has N data rows plus the header and one trailing comment
row (N + 2 lines); and the artifact files are exactly the ones deleted from
disk. -/
theorem c6_manifest_rows (files : List String) :
    ((invProcess 0 files).2).map Prod.snd = files.filter (fun f => !(isArtifact f)) ∧
    ((invProcess 0 files).2).map Prod.fst =
      natsFrom 1 ((files.filter (fun f => !(isArtifact f))).length) ∧
    (manifestLines files).length = (files.filter (fun f => !(isArtifact f))).length + 2 ∧
    (invProcess 0 files).1 = files.filter (fun f => isArtifact f) := by
  have h := invProcess_spec files 0
  refine ⟨h.2.1, h.2.2, ?_, h.1⟩
  have hlen : ((invProcess 0 files).2).length =
      (files.filter (fun f => !(isArtifact f))).length := by
    rw [← List.length_map ((invProcess 0 files).2) Prod.snd, h.2.1]
  rw [manifestLines]
  simp [hlen]

/-- Claim C7.  The overwrite prompt of the Metadata stage is asked exactly
once when some ledger row's object already has a record and never
otherwise (so at most once per run), and the whole run's outcome depends
only on the answer to that first prompt: two answer streams that agree on
the first answer produce identical runs (the single decision is applied
uniformly, with no re-prompting). -/
theorem c7_overwrite_prompt (ans ans2 : Nat → Bool) (rows : List MetaRow)
    (h0 : ans 0 = ans2 0) :
    (meta_from_csv ans verifyHeadrs rows).prompts =
      (if rows.any (fun r => r.hasMeta) then 1 else 0) ∧
    (meta_from_csv ans verifyHeadrs rows).prompts ≤ 1 ∧
    meta_from_csv ans verifyHeadrs rows = meta_from_csv ans2 verifyHeadrs rows := by
  have hmeta : meta_from_csv ans verifyHeadrs rows = rows.foldl (metaStep ans) metaInit := by
    unfold meta_from_csv
    rw [if_pos rfl]
  have hmeta2 : meta_from_csv ans2 verifyHeadrs rows =
      rows.foldl (metaStep ans2) metaInit := by
    unfold meta_from_csv
    rw [if_pos rfl]
  have hp := metaFold_prompts ans rows metaInit rfl
  refine ⟨?_, ?_, ?_⟩
  · rw [hmeta, hp]
    simp [metaInit]
  · rw [hmeta, hp]
    by_cases h : rows.any (fun r => r.hasMeta) <;> simp [h, metaInit]
  · rw [hmeta, hmeta2]
    exact metaFold_ans ans ans2 h0 rows metaInit (fun _ => rfl)

/-- Claim C7, witness: one row whose object already has a record — the
prompt is asked exactly once. -/
theorem c7_overwrite_prompt_witness :
    (meta_from_csv (fun _ => false) verifyHeadrs [metaRowSample]).prompts = 1 := by
  have h := c7_overwrite_prompt (fun _ => false) (fun _ => false) [metaRowSample] rfl
  exact h.1.trans (by decide)

/-- Claim C8.  Archiving never overwrites: an archive filename already
present in the output directory keeps exactly its byte content across a
whole `run_tar` run, and a directory entry whose target archive exists at
processing time only increments the already-archived counter — no archive
is created and the output directory is untouched by that entry. -/
theorem c8_never_overwrite (pack : String → List Nat) (init : List (String × List Nat))
    (entries : List TarEntry) (nm : String) (v : List Nat)
    (st : TarState) (e : TarEntry) (w : List Nat)
    (h1 : lookupA nm init = some v) (h2 : e.isDir = true)
    (h3 : lookupA (tarTarget e.name) st.archives = some w) :
    lookupA nm (run_tar pack init entries).archives = some v ∧
    tarStep pack st e = { st with alreadytar := st.alreadytar + 1 } := by
  constructor
  · exact tarFold_preserves pack entries _ nm v h1
  · unfold tarStep
    rw [h2, h3]
    simp

/-- Claim C8, witness: an output directory already holding `x.tar` with
content `[9]`, and an entry `x.1` whose target `x.tar` exists. -/
theorem c8_never_overwrite_witness :
    lookupA "x.tar" (run_tar (fun _ => [1]) [("x.tar", [9])]
      [TarEntry.mk "y" true]).archives = some [9] ∧
    tarStep (fun _ => [1]) (TarState.mk [("x.tar", [9])] 0 0 0) (TarEntry.mk "x.1" true) =
      TarState.mk [("x.tar", [9])] 0 1 0 := by
  have h := c8_never_overwrite (fun _ => [1]) [("x.tar", [9])] [TarEntry.mk "y" true]
    "x.tar" [9] (TarState.mk [("x.tar", [9])] 0 0 0) (TarEntry.mk "x.1" true) [9]
    (by decide) rfl (by decide)
  exact ⟨h.1, h.2⟩

/-- Claim C9, counterexample.  The prune exemption of `pre_pack` does not
apply to directories: an entry named `meta` that is a directory contains
the metadata-marker substring, yet `pre_pack` removes it (the claim's
reading would keep it). -/
theorem c9_counterexample :
    strContains "meta" "meta" = true ∧
    claimRemoves (PEntry.mk "meta" true) = false ∧
    prePackRemoves (PEntry.mk "meta" true) = true ∧
    (prePackFinal [PEntry.mk "meta" true] "obj1").entries = [] := by
  decide

/-- Claim C9, amended.  `pre_pack` processes each subdirectory in three
phases in order — the copy of the entire current contents into the staging
name is the first operation, every middle operation is a prune removal, and
the rename of the staging copy is the last operation; at every crash point
after the copy and before the rename the full staging copy exists; after
the rename the nested directory holds the complete original contents and
the surviving original entries are exactly the non-staging plain files
whose names contain the metadata-marker substring — subdirectories are
removed regardless of their name. -/
theorem c9_three_phase (children : List PEntry) (base : String) (k : Nat)
    (hnd : (children.map PEntry.name).Nodup) :
    (pre_pack_obj_trace children base).head? = some (PackOp.copyTree children) ∧
    (pre_pack_obj_trace children base).getLast? = some (PackOp.renameStaging base) ∧
    ((pre_pack_obj_trace children base).dropLast.tail.all isPruneOp) = true ∧
    (1 ≤ k → k < (pre_pack_obj_trace children base).length →
      (prePackStateAt children base k).staging = some children ∧
      (prePackStateAt children base k).nested = none) ∧
    (prePackFinal children base).nested = some (base, children) ∧
    (prePackFinal children base).entries =
      children.filter (fun e => !(prePackRemoves e)) := by
  have htr : pre_pack_obj_trace children base =
      (PackOp.copyTree children :: pruneOps children) ++ [PackOp.renameStaging base] := by
    rw [pre_pack_obj_trace]
    simp
  refine ⟨rfl, ?_, ?_, ?_, ?_⟩
  · rw [htr, List.getLast?_concat]
  · rw [htr, List.dropLast_concat]
    show (pruneOps children).all isPruneOp = true
    exact pruneOps_all children
  · intro hk1 hk2
    cases k with
    | zero => omega
    | succ j =>
      have hjlen : j ≤ (pruneOps children).length := by
        rw [htr] at hk2
        simp at hk2
        omega
      have htake : (pre_pack_obj_trace children base).take (j + 1) =
          PackOp.copyTree children :: (pruneOps children).take j := by
        rw [pre_pack_obj_trace, List.take_succ_cons, take_append_le _ _ j hjlen]
      have hcp : packApply { entries := children, staging := none, nested := none }
          (PackOp.copyTree children) =
          { entries := children, staging := some children, nested := none } := rfl
      have hall : ((pruneOps children).take j).all isPruneOp = true :=
        all_take isPruneOp (pruneOps children) j (pruneOps_all children)
      have hctl := foldl_prune_ctl ((pruneOps children).take j)
        { entries := children, staging := some children, nested := none } hall
      constructor
      · show (((pre_pack_obj_trace children base).take (j + 1)).foldl packApply
            { entries := children, staging := none, nested := none }).staging = some children
        rw [htake, List.foldl_cons, hcp, hctl.1]
      · show (((pre_pack_obj_trace children base).take (j + 1)).foldl packApply
            { entries := children, staging := none, nested := none }).nested = none
        rw [htake, List.foldl_cons, hcp, hctl.2]
  · have hcp : packApply { entries := children, staging := none, nested := none }
        (PackOp.copyTree children) =
        { entries := children, staging := some children, nested := none } := rfl
    have hfin : prePackFinal children base =
        packApply ((pruneOps children).foldl packApply
          { entries := children, staging := some children, nested := none })
          (PackOp.renameStaging base) := by
      show ((pre_pack_obj_trace children base).foldl packApply
          { entries := children, staging := none, nested := none }) = _
      rw [pre_pack_obj_trace, List.foldl_cons, hcp, List.foldl_append]
      rfl
    have hctl := foldl_prune_ctl (pruneOps children)
      { entries := children, staging := some children, nested := none }
      (pruneOps_all children)
    have hent := foldl_prune_entries children
      { entries := children, staging := some children, nested := none }
    constructor
    · rw [hfin]
      show (match ((pruneOps children).foldl packApply
            { entries := children, staging := some children, nested := none }).staging with
          | some s => some (base, s)
          | none => ((pruneOps children).foldl packApply
              { entries := children, staging := some children, nested := none }).nested) =
          some (base, children)
      rw [hctl.1]
    · rw [hfin]
      show ((pruneOps children).foldl packApply
          { entries := children, staging := some children, nested := none }).entries =
        children.filter (fun e => !(prePackRemoves e))
      rw [hent]
      exact removedNames_filter children hnd

/-- Claim C9, witness: an object with one metadata file and one
subdirectory — after the copy and before the rename the staging copy holds
everything; at the end the metadata file survives and the subdirectory is
gone. -/
theorem c9_three_phase_witness :
    (prePackStateAt [PEntry.mk "metadata.csv" false, PEntry.mk "sub" true] "obj1" 1).staging =
      some [PEntry.mk "metadata.csv" false, PEntry.mk "sub" true] ∧
    (prePackFinal [PEntry.mk "metadata.csv" false, PEntry.mk "sub" true] "obj1").entries =
      [PEntry.mk "metadata.csv" false] := by
  have h := c9_three_phase [PEntry.mk "metadata.csv" false, PEntry.mk "sub" true] "obj1" 1
    (by decide)
  refine ⟨(h.2.2.2.1 (by decide) (by decide)).1, ?_⟩
  rw [h.2.2.2.2.2]
  decide

/-- Claim C10.  Both archive names and the output directory name are
derived with `splitext`: a source directory `batch.2019` yields output
directory `batch-tarred`, the entries `x.1` and `x.2` both map to archive
name `x.tar`, and for any two directory entries whose names have the same
`splitext` root, a run over both starting from an empty output directory
creates exactly one archive and counts the second entry as
already-archived. -/
theorem c10_splitext_collision (pack : String → List Nat) (a b : TarEntry)
    (ha : a.isDir = true) (hb : b.isDir = true)
    (hroot : splitextRoot a.name = splitextRoot b.name) :
    outFolderName "batch.2019" = "batch-tarred" ∧
    tarTarget "x.1" = "x.tar" ∧
    tarTarget "x.2" = "x.tar" ∧
    (run_tar pack [] [a, b]).tarfiles = 1 ∧
    (run_tar pack [] [a, b]).alreadytar = 1 ∧
    (run_tar pack [] [a, b]).archives = [(tarTarget a.name, pack a.name)] := by
  have hbt : tarTarget b.name = tarTarget a.name := by
    unfold tarTarget
    rw [hroot]
  have hs1 : tarStep pack (TarState.mk [] 0 0 0) a =
      TarState.mk [(tarTarget a.name, pack a.name)] 1 0 0 := by
    unfold tarStep
    rw [ha]
    simp [lookupA]
  have hs2 : tarStep pack (TarState.mk [(tarTarget a.name, pack a.name)] 1 0 0) b =
      TarState.mk [(tarTarget a.name, pack a.name)] 1 1 0 := by
    unfold tarStep
    rw [hb]
    simp [lookupA, hbt]
  have hrun : run_tar pack [] [a, b] =
      TarState.mk [(tarTarget a.name, pack a.name)] 1 1 0 := by
    unfold run_tar
    rw [List.foldl_cons, hs1, List.foldl_cons, hs2, List.foldl_nil]
  refine ⟨by decide, by decide, by decide, ?_, ?_, ?_⟩
  · rw [hrun]
  · rw [hrun]
  · rw [hrun]

/-- Claim C10, witness: the two directories `x.1` and `x.2`. -/
theorem c10_splitext_collision_witness :
    (run_tar (fun _ => [0]) [] [TarEntry.mk "x.1" true, TarEntry.mk "x.2" true]).tarfiles = 1 ∧
    (run_tar (fun _ => [0]) [] [TarEntry.mk "x.1" true, TarEntry.mk "x.2" true]).alreadytar = 1 := by
  have h := c10_splitext_collision (fun _ => [0]) (TarEntry.mk "x.1" true)
    (TarEntry.mk "x.2" true) rfl rfl (by decide)
  exact ⟨h.2.2.2.1, h.2.2.2.2.1⟩

end UPack
